import Mathlib

set_option maxRecDepth 100000

/-!
Embedding of the `rabin` crate of the dedup repository: the Rabin rolling
hash (`src/rabin/src/rolling_hash.rs`), the build-time table generator
(`src/rabin/build.rs`) and the content-defined `Chunker`
(`src/rabin/src/chunker.rs`).

Machine integers (`u64`) are modelled as `Nat` with explicit reduction
mod `2 ^ 64` wherever the Rust semantics wraps; bytes are `Nat` values
below 256; byte buffers are `List Nat`.
-/

/-- Constant `DEFAULT_IRREDUCIBLE_POLYNOMIAL_64` from `rolling_hash.rs`: the low 64
bits of x^64 + x^4 + x^3 + x + 1 (bit 64 is implicit). -/
def DEFAULT_IRREDUCIBLE_POLYNOMIAL_64 : Nat := 0x1B

/-- One iteration of the loop body of `shift_left_n_bits_with_mod_64` in
`rolling_hash.rs`: check bit 63, shift left by one (wrapping as `u64`),
and XOR the polynomial in when bit 63 was set before the shift. -/
def shlModStep (number : Nat) : Nat :=
  let shifted := (number <<< 1) % 2 ^ 64
  if number &&& 0x8000000000000000 = 0x8000000000000000 then
    shifted ^^^ DEFAULT_IRREDUCIBLE_POLYNOMIAL_64
  else
    shifted

/-- Function `shift_left_n_bits_with_mod_64` from `rolling_hash.rs`: `n` single-bit
left shifts, reducing by the irreducible polynomial whenever bit 63 was
set before a shift. -/
def shift_left_n_bits_with_mod_64 (number : Nat) (n : Nat) : Nat :=
  match n with
  | 0 => number
  | m + 1 => shift_left_n_bits_with_mod_64 (shlModStep number) m

/-- The value `RollingHash::new` stores in `push[b]`:
`shift_left_n_bits_with_mod_64(b << 56, BITS_PER_BYTE)`. -/
def pushEntry (b : Nat) : Nat := shift_left_n_bits_with_mod_64 (b <<< 56) 8

/-- The value `RollingHash::new` stores in `pop[b]`:
`shift_left_n_bits_with_mod_64(b, BITS_PER_BYTE * WINDOW_SIZE)`. -/
def popEntry (b : Nat) : Nat := shift_left_n_bits_with_mod_64 b (8 * 16)

/-- The `push` table built by the loop in `RollingHash::new`
(`rolling_hash.rs`), entry `i` holding
`shift_left_n_bits_with_mod_64(i << 56, 8)`. -/
def rhPushTable : List Nat :=
  (List.range 256).map (fun i => shift_left_n_bits_with_mod_64 (i <<< 56) 8)

/-- The `pop` table built by the loop in `RollingHash::new`
(`rolling_hash.rs`), entry `i` holding
`shift_left_n_bits_with_mod_64(i, 8 * 16)`. -/
def rhPopTable : List Nat :=
  (List.range 256).map (fun i => shift_left_n_bits_with_mod_64 i (8 * 16))

/-- The build script `build.rs` carries its own copy of the loop body of
`shift_left_n_bits_with_mod_64` (the function is duplicated verbatim in
`build.rs` and `rolling_hash.rs`). -/
def buildShlModStep (number : Nat) : Nat :=
  let shifted := (number <<< 1) % 2 ^ 64
  if number &&& 0x8000000000000000 = 0x8000000000000000 then
    shifted ^^^ DEFAULT_IRREDUCIBLE_POLYNOMIAL_64
  else
    shifted

/-- Function `shift_left_n_bits_with_mod_64` as defined in `build.rs`. -/
def build_shift_left_n_bits_with_mod_64 (number : Nat) (n : Nat) : Nat :=
  match n with
  | 0 => number
  | m + 1 => build_shift_left_n_bits_with_mod_64 (buildShlModStep number) m

/-- Table `ROLLING_HASH_PUSH_TABLE` emitted by the generator loop in `build.rs`:
entry `i` is `shift_left_n_bits_with_mod_64(i << 56, BITS_PER_BYTE)`. -/
def ROLLING_HASH_PUSH_TABLE : List Nat :=
  (List.range 256).map (fun i => build_shift_left_n_bits_with_mod_64 (i <<< 56) 8)

/-- Table `ROLLING_HASH_POP_TABLE` emitted by the generator loop in `build.rs`:
entry `i` is `shift_left_n_bits_with_mod_64(i, BITS_PER_BYTE * WINDOW_SIZE)`. -/
def ROLLING_HASH_POP_TABLE : List Nat :=
  (List.range 256).map (fun i => build_shift_left_n_bits_with_mod_64 i (8 * 16))

/-- The `RollingHash` struct of `rolling_hash.rs`. The `push` and `pop`
table fields are omitted from the state: they are filled once by `new`
with `pushEntry`/`popEntry` values (see the table theorems) and never
written again, so table lookups are embedded as applications of
`pushEntry` and `popEntry`. -/
structure RollingHash where
  hash : Nat
  queue : List Nat
  next : Nat
deriving DecidableEq

/-- Method `RollingHash::new`: zeroed hash, zeroed 16-byte window, `next = 0`. -/
def RollingHash.new : RollingHash :=
  { hash := 0, queue := List.replicate 16 0, next := 0 }

/-- Method `RollingHash::reset`: zeroes `hash` and the window, leaves `next`
unchanged (as the Rust code does). -/
def RollingHash.reset (s : RollingHash) : RollingHash :=
  { s with hash := 0, queue := List.replicate 16 0 }

/-- Method `RollingHash::hash_byte`: concat the new byte onto the hash with the
`push` correction for the outgoing top byte, XOR out the `pop`
contribution of the byte leaving the circular queue, store the new byte
and advance `next` by `(next + 1) & WINDOW_MASK`. -/
def RollingHash.hashByte (s : RollingHash) (b : Nat) : RollingHash :=
  let high_byte := s.hash >>> 56
  let h1 := (((s.hash <<< 8) % 2 ^ 64) ||| b) ^^^ pushEntry high_byte
  let old_byte := s.queue.getD s.next 0
  let h2 := h1 ^^^ popEntry old_byte
  { hash := h2, queue := s.queue.set s.next b, next := (s.next + 1) &&& 15 }

/-- Method `RollingHash::hash_bytes`: if the buffer is longer than
`TWICE_WINDOW_SIZE` (32), reset and hash only the final 16 bytes;
otherwise fold `hash_byte` over the whole buffer. -/
def RollingHash.hashBytes (s : RollingHash) (bytes : List Nat) : RollingHash :=
  if bytes.length > 2 * 16 then
    List.foldl RollingHash.hashByte s.reset (bytes.drop (bytes.length - 16))
  else
    List.foldl RollingHash.hashByte s bytes

/-- Modelled from the spec: one Horner step of the Rabin fingerprint under
P = x^64 + x^4 + x^3 + x + 1 — multiply the accumulated polynomial by x^8
(reducing mod P) and add the next byte. -/
def rabinStep (h b : Nat) : Nat := shift_left_n_bits_with_mod_64 h 8 ^^^ b

/-- Modelled from the spec: the Rabin fingerprint under P of a byte
sequence, the remainder mod P of the polynomial whose coefficient bytes
are the sequence read left to right. -/
def rabinFingerprint (l : List Nat) : Nat := l.foldl rabinStep 0

/-- The last `min(k, 16)` bytes of a sequence of `k` hashed bytes,
virtually left-padded with zero bytes to length 16 when `k < 16`. -/
def lastWindow (l : List Nat) : List Nat :=
  (List.replicate 16 0 ++ l).drop l.length

/-- The contents of the circular queue read oldest byte first: the slot
`next` holds the oldest byte. -/
def windowList (s : RollingHash) : List Nat :=
  s.queue.drop s.next ++ s.queue.take s.next

/-- Constant `PRIMARY_BITMASK` from `chunker.rs` (2^11 - 1). -/
def PRIMARY_BITMASK : Nat := 2047

/-- Constant `SECONDARY_BITMASK` from `chunker.rs` (2^10 - 1). -/
def SECONDARY_BITMASK : Nat := 1023

/-- The `Chunker` struct of `chunker.rs`: an owned hasher, the remaining
byte region, and the size bounds. -/
structure Chunker where
  hasher : RollingHash
  mem : List Nat
  min : Nat
  max : Nat
deriving DecidableEq

/-- Method `Chunker::new`. -/
def Chunker.new (mem : List Nat) (min max : Nat) : Chunker :=
  { hasher := RollingHash.new, mem := mem, min := min, max := max }

/-- Method `Chunker::pop_front_chunk`: split off the first `len` bytes. The
Rust slicing `&self.mem[0..len]` panics when `len` exceeds the region
length; that branch is modelled by `none`. -/
def pop_front_chunk (mem : List Nat) (len : Nat) :
    Option (List Nat × List Nat) :=
  if len ≤ mem.length then some (mem.take len, mem.drop len) else none

/-- The `for i in self.min..self.max` scan of `Chunker::next`, carried
out with `fuel = max - min` remaining iterations and current index `i`.
It breaks when `i` reaches the buffer length; otherwise it feeds byte `i`
to the hasher and tests the primary then the secondary bitmask. Returns
the primary cut (if any), the last secondary cut (0 = sentinel for none)
and the hasher state at exit. -/
def scanLoop (fuel i : Nat) (hasher : RollingHash) (mem : List Nat)
    (secondary : Nat) : Option Nat × Nat × RollingHash :=
  match fuel with
  | 0 => (none, secondary, hasher)
  | fuel' + 1 =>
    if mem.length ≤ i then (none, secondary, hasher)
    else
      let hasher' := hasher.hashByte (mem.getD i 0)
      let h := hasher'.hash
      if h &&& PRIMARY_BITMASK = PRIMARY_BITMASK then (some i, secondary, hasher')
      else if h &&& SECONDARY_BITMASK = SECONDARY_BITMASK then
        scanLoop fuel' (i + 1) hasher' mem i
      else
        scanLoop fuel' (i + 1) hasher' mem secondary

/-- Method `next` of `impl Iterator for Chunker`. `Except.error` marks the (unreachable)
panicking slice of `pop_front_chunk`; `.ok none` is iterator exhaustion. -/
def chunkerNext (c : Chunker) : Except Unit (Option (List Nat × Chunker)) :=
  let len := c.mem.length
  if len = 0 then .ok none
  else if len < c.min then .ok (some (c.mem, { c with mem := [] }))
  else
    let h0 := (c.hasher.reset).hashBytes (c.mem.take c.min)
    match scanLoop (c.max - c.min) c.min h0 c.mem 0 with
    | (some i, _, hasher') =>
      match pop_front_chunk c.mem i with
      | some (chunk, rest) =>
        .ok (some (chunk, { c with hasher := hasher', mem := rest }))
      | none => .error ()
    | (none, secondary, hasher') =>
      let cut0 := if secondary = 0 then c.max else secondary
      let cut := if cut0 > len then len else cut0
      match pop_front_chunk c.mem cut with
      | some (chunk, rest) =>
        .ok (some (chunk, { c with hasher := hasher', mem := rest }))
      | none => .error ()

/-- Iterate `chunkerNext` collecting the emitted chunks, with enough fuel;
stops at exhaustion (or at the unreachable panic marker). -/
def chunkerRun (fuel : Nat) (c : Chunker) : List (List Nat) :=
  match fuel with
  | 0 => []
  | fuel' + 1 =>
    match chunkerNext c with
    | .ok (some (chunk, c')) => chunk :: chunkerRun fuel' c'
    | _ => []

/-- Iterate `chunkerNext` returning the final `Chunker` state. -/
def chunkerRunState (fuel : Nat) (c : Chunker) : Chunker :=
  match fuel with
  | 0 => c
  | fuel' + 1 =>
    match chunkerNext c with
    | .ok (some (_, c')) => chunkerRunState fuel' c'
    | _ => c

/-- The chunk emitted by one `chunkerNext` call, if any. -/
def emittedChunk (c : Chunker) : Option (List Nat) :=
  match chunkerNext c with
  | .ok (some (chunk, _)) => some chunk
  | _ => none


/-! ### XOR and bit-level helper lemmas -/

theorem natXor_left_comm (a b c : Nat) : a ^^^ (b ^^^ c) = b ^^^ (a ^^^ c) := by
  rw [← Nat.xor_assoc, Nat.xor_comm a b, Nat.xor_assoc]

theorem natXor_cancel_left (a b : Nat) : a ^^^ (a ^^^ b) = b := by
  rw [← Nat.xor_assoc, Nat.xor_self, Nat.zero_xor]

theorem and_msb_eq (v : Nat) :
    (v &&& 0x8000000000000000 = 0x8000000000000000) ↔ v.testBit 63 = true := by
  have h : (0x8000000000000000 : Nat) = 2 ^ 63 := by norm_num
  rw [h, Nat.and_two_pow]
  cases hb : v.testBit 63 <;> simp

theorem shiftLeft_one_mod_xor (a b : Nat) :
    ((a ^^^ b) <<< 1) % 2 ^ 64 = ((a <<< 1) % 2 ^ 64) ^^^ ((b <<< 1) % 2 ^ 64) := by
  apply Nat.eq_of_testBit_eq
  intro i
  simp only [Nat.testBit_mod_two_pow, Nat.testBit_shiftLeft, Nat.testBit_xor]
  by_cases h1 : i < 64 <;> by_cases h2 : 1 ≤ i <;> simp [h1, h2]

theorem shlModStep_xor (a b : Nat) :
    shlModStep (a ^^^ b) = shlModStep a ^^^ shlModStep b := by
  unfold shlModStep
  by_cases ha : a.testBit 63 = true <;> by_cases hb : b.testBit 63 = true <;>
    simp only [and_msb_eq, Nat.testBit_xor, ha, hb, Bool.xor_true, Bool.xor_false,
      Bool.true_xor, Bool.false_xor, Bool.not_true, Bool.not_false, if_true, if_false,
      reduceIte, shiftLeft_one_mod_xor] <;>
    simp [Nat.xor_assoc, Nat.xor_comm, natXor_left_comm, natXor_cancel_left,
      Nat.xor_self, Nat.xor_zero, Nat.zero_xor]

theorem shlMod_xor (a b n : Nat) :
    shift_left_n_bits_with_mod_64 (a ^^^ b) n =
      shift_left_n_bits_with_mod_64 a n ^^^ shift_left_n_bits_with_mod_64 b n := by
  induction n generalizing a b with
  | zero => rfl
  | succ m ih =>
    simp only [shift_left_n_bits_with_mod_64, shlModStep_xor]
    exact ih _ _

theorem shlModStep_zero : shlModStep 0 = 0 := by decide

theorem shlMod_zero (n : Nat) : shift_left_n_bits_with_mod_64 0 n = 0 := by
  induction n with
  | zero => rfl
  | succ m ih => simp only [shift_left_n_bits_with_mod_64, shlModStep_zero]; exact ih

theorem shlMod_add (v m n : Nat) :
    shift_left_n_bits_with_mod_64 v (m + n) =
      shift_left_n_bits_with_mod_64 (shift_left_n_bits_with_mod_64 v m) n := by
  induction m generalizing v with
  | zero => rw [Nat.zero_add]; rfl
  | succ k ih =>
    have : k + 1 + n = (k + n) + 1 := by omega
    rw [this]
    simp only [shift_left_n_bits_with_mod_64]
    exact ih _

theorem shlModStep_small (v : Nat) (h : v < 2 ^ 63) : shlModStep v = v <<< 1 := by
  unfold shlModStep
  have hno : ¬(v &&& 0x8000000000000000 = 0x8000000000000000) := by
    intro hc
    have h2 : v &&& 0x8000000000000000 ≤ v := Nat.and_le_left
    rw [hc] at h2
    norm_num at h2 h
    omega
  rw [if_neg hno]
  have : v <<< 1 < 2 ^ 64 := by
    rw [Nat.shiftLeft_eq]
    norm_num at h ⊢
    omega
  exact Nat.mod_eq_of_lt this

theorem shlMod_eq_shiftLeft (n v : Nat) (h : v * 2 ^ n < 2 ^ 64) :
    shift_left_n_bits_with_mod_64 v n = v <<< n := by
  induction n generalizing v with
  | zero => simp [shift_left_n_bits_with_mod_64]
  | succ k ih =>
    have hv : v < 2 ^ 63 := by
      have h2 : v * 2 ≤ v * 2 ^ (k + 1) := by
        apply Nat.mul_le_mul_left
        have : (2 : Nat) ^ 1 ≤ 2 ^ (k + 1) := Nat.pow_le_pow_right (by norm_num) (by omega)
        simpa using this
      norm_num at h2 ⊢
      omega
    simp only [shift_left_n_bits_with_mod_64, shlModStep_small v hv]
    have harg : (v <<< 1) * 2 ^ k < 2 ^ 64 := by
      rw [Nat.shiftLeft_eq]
      calc v * 2 ^ 1 * 2 ^ k = v * 2 ^ (k + 1) := by ring
      _ < 2 ^ 64 := h
    rw [ih _ harg, show k + 1 = 1 + k by omega, Nat.shiftLeft_add]

theorem split_high_low (h : Nat) : ((h >>> 56) <<< 56) ^^^ (h % 2 ^ 56) = h := by
  apply Nat.eq_of_testBit_eq
  intro i
  simp only [Nat.testBit_xor, Nat.testBit_shiftLeft, Nat.testBit_shiftRight,
    Nat.testBit_mod_two_pow]
  rcases le_or_lt 56 i with hi | hi
  · have h1 : 56 + (i - 56) = i := by omega
    have h2 : ¬(i < 56) := by omega
    simp [hi, h1, h2]
  · have h2 : ¬(56 ≤ i) := by omega
    simp [hi, h2]

theorem shiftLeft8_mod (h : Nat) : (h <<< 8) % 2 ^ 64 = (h % 2 ^ 56) <<< 8 := by
  apply Nat.eq_of_testBit_eq
  intro i
  simp only [Nat.testBit_mod_two_pow, Nat.testBit_shiftLeft]
  rcases lt_or_le i 8 with hi | hi
  · simp [show ¬(8 ≤ i) by omega]
  · rcases lt_or_le i 64 with hj | hj
    · simp [hi, hj, show i - 8 < 56 by omega]
    · simp [hi, show ¬(i < 64) by omega, show ¬(i - 8 < 56) by omega]

theorem lor_byte_eq_xor (x b : Nat) (hb : b < 256) :
    ((x <<< 8) ||| b) = (x <<< 8) ^^^ b := by
  apply Nat.eq_of_testBit_eq
  intro i
  simp only [Nat.testBit_or, Nat.testBit_xor, Nat.testBit_shiftLeft]
  rcases le_or_lt 8 i with hi | hi
  · have hbi : b.testBit i = false := by
      apply Nat.testBit_lt_two_pow
      calc b < 256 := hb
      _ = 2 ^ 8 := by norm_num
      _ ≤ 2 ^ i := Nat.pow_le_pow_right (by norm_num) hi
    simp [hi, hbi]
  · have h2 : ¬(8 ≤ i) := by omega
    simp [h2]

/-- The push half of `hash_byte`: the wrapped shift-by-8 combined with the
`push`-table correction for the departing top byte equals a genuine
modular shift by 8 of the whole hash, with the new byte XORed in. -/
theorem hashByte_push_eq (h b : Nat) (hb : b < 256) :
    (((h <<< 8) % 2 ^ 64) ||| b) ^^^ pushEntry (h >>> 56) =
      shift_left_n_bits_with_mod_64 h 8 ^^^ b := by
  conv_rhs => rw [← split_high_low h]
  rw [shlMod_xor, shiftLeft8_mod, lor_byte_eq_xor _ b hb]
  have hsmall : (h % 2 ^ 56) * 2 ^ 8 < 2 ^ 64 := by
    have h1 : h % 2 ^ 56 < 2 ^ 56 := Nat.mod_lt _ (by norm_num)
    norm_num at h1 ⊢
    omega
  rw [shlMod_eq_shiftLeft 8 _ hsmall]
  unfold pushEntry
  simp [Nat.xor_assoc, Nat.xor_comm, natXor_left_comm, natXor_cancel_left,
    Nat.xor_self, Nat.xor_zero, Nat.zero_xor]

/-! ### Rabin fingerprint fold lemmas -/

theorem foldl_rabinStep_xor (l : List Nat) (a c : Nat) :
    l.foldl rabinStep (a ^^^ c) =
      l.foldl rabinStep a ^^^ shift_left_n_bits_with_mod_64 c (8 * l.length) := by
  induction l generalizing a c with
  | nil => rw [List.length_nil, Nat.mul_zero]; rfl
  | cons b t ih =>
    have hstep : rabinStep (a ^^^ c) b =
        rabinStep a b ^^^ shift_left_n_bits_with_mod_64 c 8 := by
      unfold rabinStep
      rw [shlMod_xor]
      simp [Nat.xor_assoc, Nat.xor_comm, natXor_left_comm]
    rw [List.foldl_cons, List.foldl_cons, hstep, ih _ _]
    congr 1

theorem rabinFingerprint_cons (w0 : Nat) (t : List Nat) :
    rabinFingerprint (w0 :: t) =
      rabinFingerprint t ^^^ shift_left_n_bits_with_mod_64 w0 (8 * t.length) := by
  unfold rabinFingerprint
  rw [List.foldl_cons]
  have h0 : rabinStep 0 w0 = 0 ^^^ w0 := by
    unfold rabinStep
    rw [shlMod_zero]
  rw [h0, foldl_rabinStep_xor]

theorem rabinFingerprint_append_one (t : List Nat) (b : Nat) :
    rabinFingerprint (t ++ [b]) = rabinStep (rabinFingerprint t) b := by
  unfold rabinFingerprint
  rw [List.foldl_append]
  rfl

theorem rabinFingerprint_replicate_zero (k : Nat) :
    rabinFingerprint (List.replicate k 0) = 0 := by
  induction k with
  | zero => rfl
  | succ m ih =>
    rw [List.replicate_succ, rabinFingerprint_cons, ih, shlMod_zero]
    rfl

/-! ### The rolling-window invariant of `hash_byte` -/

theorem hashByte_next_eq_mod (n : Nat) (hn : n < 16) :
    (n + 1) &&& 15 = (n + 1) % 16 := by
  interval_cases n <;> rfl

theorem windowList_length (s : RollingHash) (hq : s.queue.length = 16)
    (hn : s.next < 16) : (windowList s).length = 16 := by
  unfold windowList
  rw [List.length_append, List.length_drop, List.length_take, hq]
  omega

theorem drop_one_append (xs ys : List Nat) (h : xs ≠ []) :
    (xs ++ ys).drop 1 = xs.drop 1 ++ ys := by
  cases xs with
  | nil => exact absurd rfl h
  | cons a t => simp

/-- Rotating the circular queue: writing `b` at slot `n` and advancing the
oldest-byte pointer to `(n + 1) % 16` pops the oldest byte off the front
of the window and pushes `b` on the back. -/
theorem windowList_set_rotate (q : List Nat) (n b : Nat) (hq : q.length = 16)
    (hn : n < 16) :
    (q.set n b).drop ((n + 1) % 16) ++ (q.set n b).take ((n + 1) % 16) =
      (q.drop n ++ q.take n).drop 1 ++ [b] := by
  have hn' : n < q.length := by omega
  have hset := List.set_eq_take_cons_drop b hn'
  have hdropn := List.drop_eq_getElem_cons hn'
  have hltn : (q.take n).length = n := by
    rw [List.length_take]
    omega
  rcases Nat.lt_or_ge (n + 1) 16 with h16 | h16
  · have hmod : (n + 1) % 16 = n + 1 := Nat.mod_eq_of_lt h16
    have e1 : (q.set n b).drop (n + 1) = q.drop (n + 1) := by
      rw [hset, show n + 1 = (q.take n).length + 1 by rw [hltn], List.drop_append]
      rfl
    have e2 : (q.set n b).take (n + 1) = q.take n ++ [b] := by
      rw [hset, show n + 1 = (q.take n).length + 1 by rw [hltn], List.take_append]
      rfl
    rw [hmod, e1, e2, hdropn, List.cons_append, List.drop_succ_cons,
      List.drop_zero, List.append_assoc]
  · have hn15 : n = 15 := by omega
    subst hn15
    have hmod : (15 + 1) % 16 = 0 := by norm_num
    have hdrop16 : q.drop 16 = [] := by
      rw [show (16 : Nat) = q.length by omega, List.drop_length]
    rw [hmod, List.drop_zero, List.take_zero, List.append_nil, hset, hdropn, hdrop16]
    simp

/-- One `hash_byte` call: the hash stays the fingerprint of the window,
the window rotates the new byte in, and the queue shape is preserved. -/
theorem hashByte_window_step (s : RollingHash) (b : Nat) (hb : b < 256)
    (hq : s.queue.length = 16) (hn : s.next < 16)
    (hh : s.hash = rabinFingerprint (windowList s)) :
    (s.hashByte b).hash = rabinFingerprint (windowList (s.hashByte b)) ∧
      windowList (s.hashByte b) = (windowList s).drop 1 ++ [b] ∧
      (s.hashByte b).queue.length = 16 ∧ (s.hashByte b).next < 16 := by
  have hn' : s.next < s.queue.length := by omega
  have hwrot : windowList (s.hashByte b) = (windowList s).drop 1 ++ [b] := by
    unfold windowList RollingHash.hashByte
    simp only
    rw [hashByte_next_eq_mod s.next hn]
    exact windowList_set_rotate s.queue s.next b hq hn
  have hqlen : (s.hashByte b).queue.length = 16 := by
    unfold RollingHash.hashByte
    simp only [List.length_set]
    exact hq
  have hnext : (s.hashByte b).next < 16 := by
    unfold RollingHash.hashByte
    simp only
    have : (s.next + 1) &&& 15 ≤ 15 := Nat.and_le_right
    omega
  refine ⟨?_, hwrot, hqlen, hnext⟩
  have hold : s.queue.getD s.next 0 = s.queue[s.next] :=
    List.getD_eq_getElem s.queue 0 hn'
  have hwcons : windowList s = s.queue[s.next] :: (s.queue.drop (s.next + 1) ++ s.queue.take s.next) := by
    unfold windowList
    rw [List.drop_eq_getElem_cons hn']
    rfl
  have hrestlen : (s.queue.drop (s.next + 1) ++ s.queue.take s.next).length = 15 := by
    rw [List.length_append, List.length_drop, List.length_take]
    omega
  have hhash : (s.hashByte b).hash =
      ((((s.hash <<< 8) % 2 ^ 64) ||| b) ^^^ pushEntry (s.hash >>> 56)) ^^^
        popEntry (s.queue.getD s.next 0) := rfl
  rw [hhash, hashByte_push_eq s.hash b hb, hwrot, hwcons]
  set rest := s.queue.drop (s.next + 1) ++ s.queue.take s.next with hrest
  rw [hh, hwcons, rabinFingerprint_cons, hrestlen]
  rw [show List.drop 1 (s.queue[s.next] :: rest) = rest from rfl]
  rw [rabinFingerprint_append_one]
  unfold rabinStep
  rw [shlMod_xor, hold]
  rw [show (8 : Nat) * 15 = 120 from rfl]
  rw [← shlMod_add]
  unfold popEntry
  rw [show (120 : Nat) + 8 = 8 * 16 from rfl]
  simp [Nat.xor_assoc, Nat.xor_comm, natXor_left_comm, natXor_cancel_left,
    Nat.xor_self, Nat.xor_zero, Nat.zero_xor]

/-- Folding `hash_byte` over a byte list keeps the hash equal to the
fingerprint of the window, and the final window is the last 16 entries of
the starting window followed by the hashed bytes. -/
theorem foldl_hashByte_invariant (l : List Nat) (s : RollingHash)
    (hl : ∀ b ∈ l, b < 256) (hq : s.queue.length = 16) (hn : s.next < 16)
    (hh : s.hash = rabinFingerprint (windowList s)) :
    (List.foldl RollingHash.hashByte s l).hash =
        rabinFingerprint (windowList (List.foldl RollingHash.hashByte s l)) ∧
      windowList (List.foldl RollingHash.hashByte s l) =
        (windowList s ++ l).drop l.length ∧
      (List.foldl RollingHash.hashByte s l).queue.length = 16 ∧
      (List.foldl RollingHash.hashByte s l).next < 16 := by
  induction l generalizing s with
  | nil =>
    refine ⟨hh, ?_, hq, hn⟩
    rw [List.length_nil, List.append_nil, List.drop_zero, List.foldl_nil]
  | cons b t ih =>
    obtain ⟨hh', hw', hq', hn'⟩ :=
      hashByte_window_step s b (hl b (by simp)) hq hn hh
    obtain ⟨ih1, ih2, ih3, ih4⟩ :=
      ih (s.hashByte b) (fun x hx => hl x (by simp [hx])) hq' hn' hh'
    rw [List.foldl_cons]
    refine ⟨ih1, ?_, ih3, ih4⟩
    rw [ih2, hw']
    have hne : windowList s ≠ [] := by
      intro hnil
      have hlen := windowList_length s hq hn
      rw [hnil] at hlen
      simp at hlen
    rw [List.append_assoc, List.singleton_append,
      ← drop_one_append (windowList s) (b :: t) hne, List.drop_drop,
      List.length_cons, Nat.add_comm]

/-- The windows of the states reachable by `reset` (`hash = 0`, zeroed
queue, arbitrary in-range `next`) are all-zero, so the fingerprint
invariant holds from the start. -/
theorem windowList_zeroState (n : Nat) :
    windowList { hash := 0, queue := List.replicate 16 0, next := n } =
      List.replicate (16 - n) 0 ++ List.replicate (Nat.min n 16) 0 := by
  unfold windowList
  rw [List.drop_replicate, List.take_replicate]

theorem windowList_zeroState_eq (n : Nat) (hn : n < 16) :
    windowList { hash := 0, queue := List.replicate 16 0, next := n } =
      List.replicate 16 0 := by
  have hmin : Nat.min n 16 = n := by
    unfold Nat.min
    omega
  rw [windowList_zeroState, hmin, ← List.replicate_add]
  congr 1
  omega

/-- Hashing any byte list one byte at a time from a zeroed state (fresh
`new`, or the result of `reset` at any in-range `next`) leaves `hash`
equal to the Rabin fingerprint of the last 16 bytes, zero-padded. -/
theorem foldl_hashByte_hash_zeroState (n : Nat) (hn : n < 16) (l : List Nat)
    (hl : ∀ b ∈ l, b < 256) :
    (List.foldl RollingHash.hashByte
        { hash := 0, queue := List.replicate 16 0, next := n } l).hash =
      rabinFingerprint (lastWindow l) := by
  have hws := windowList_zeroState_eq n hn
  obtain ⟨h1, h2, _, _⟩ :=
    foldl_hashByte_invariant l { hash := 0, queue := List.replicate 16 0, next := n }
      hl (by simp) hn (by rw [hws, rabinFingerprint_replicate_zero])
  rw [h1, h2, hws]
  rfl

/-! ### `lastWindow` arithmetic -/

theorem drop_append_ge (l₁ l₂ : List Nat) (n : Nat) (h : l₁.length ≤ n) :
    (l₁ ++ l₂).drop n = l₂.drop (n - l₁.length) := by
  have hn : n = l₁.length + (n - l₁.length) := by omega
  conv_lhs => rw [hn]
  rw [List.drop_append]

theorem lastWindow_of_ge (l : List Nat) (h : 16 ≤ l.length) :
    lastWindow l = l.drop (l.length - 16) := by
  unfold lastWindow
  rw [drop_append_ge _ _ _ (by rw [List.length_replicate]; omega),
    List.length_replicate]

theorem lastWindow_of_len16 (l : List Nat) (h : l.length = 16) :
    lastWindow l = l := by
  rw [lastWindow_of_ge l (by omega), h]
  simp

theorem lastWindow_drop_last16 (B : List Nat) (h : 16 ≤ B.length) :
    lastWindow (B.drop (B.length - 16)) = lastWindow B := by
  have hlen : (B.drop (B.length - 16)).length = 16 := by
    rw [List.length_drop]
    omega
  rw [lastWindow_of_len16 _ hlen, lastWindow_of_ge B h]

theorem lastWindow_of_lt (B : List Nat) (h : B.length < 16) :
    lastWindow B = List.replicate (16 - B.length) 0 ++ B := by
  unfold lastWindow
  have hsplit : List.replicate 16 (0 : Nat) =
      List.replicate B.length 0 ++ List.replicate (16 - B.length) 0 := by
    rw [← List.replicate_add]
    congr 1
    omega
  conv_lhs => rw [hsplit]
  rw [List.append_assoc, drop_append_ge _ _ _ (by simp)]
  simp

theorem lastWindow_pad (B : List Nat) (h : B.length < 16) :
    lastWindow (List.replicate (16 - B.length) 0 ++ B) = lastWindow B := by
  have hlen : (List.replicate (16 - B.length) (0 : Nat) ++ B).length = 16 := by
    rw [List.length_append, List.length_replicate]
    omega
  rw [lastWindow_of_len16 _ hlen, lastWindow_of_lt B h]

/-- Running `hash_bytes` from a zeroed state (fresh or freshly reset): the final
hash is the fingerprint of the zero-padded last-16-byte window, whichever
branch of the `> 2·W` optimization runs. -/
theorem hashBytes_hash_zeroState (n : Nat) (hn : n < 16) (B : List Nat)
    (hB : ∀ b ∈ B, b < 256) :
    (RollingHash.hashBytes
        { hash := 0, queue := List.replicate 16 0, next := n } B).hash =
      rabinFingerprint (lastWindow B) := by
  unfold RollingHash.hashBytes
  split
  · next hlong =>
    have hreset : RollingHash.reset
        { hash := 0, queue := List.replicate 16 0, next := n } =
        { hash := 0, queue := List.replicate 16 0, next := n } := rfl
    rw [hreset, foldl_hashByte_hash_zeroState n hn _
      (fun b hb => hB b (List.drop_subset _ _ hb))]
    rw [lastWindow_drop_last16 B (by omega)]
  · exact foldl_hashByte_hash_zeroState n hn B hB

theorem hashBytes_new_hash (B : List Nat) (hB : ∀ b ∈ B, b < 256) :
    (RollingHash.new.hashBytes B).hash = rabinFingerprint (lastWindow B) :=
  hashBytes_hash_zeroState 0 (by norm_num) B hB

/-- C2: for every sequence of `hash_byte` calls applied to a freshly reset
(or newly constructed) `RollingHash`, `hash()` equals the Rabin
fingerprint mod P of the last `min(k, 16)` bytes of the sequence,
left-padded with zero bytes to length 16 when `k < 16` (`lastWindow`). -/
theorem rollingHash_window_fingerprint (s : RollingHash) (hn : s.next < 16)
    (l : List Nat) (hl : ∀ b ∈ l, b < 256) :
    (List.foldl RollingHash.hashByte s.reset l).hash =
        rabinFingerprint (lastWindow l) ∧
      (List.foldl RollingHash.hashByte RollingHash.new l).hash =
        rabinFingerprint (lastWindow l) := by
  constructor
  · have hr : s.reset =
        { hash := 0, queue := List.replicate 16 0, next := s.next } := rfl
    rw [hr]
    exact foldl_hashByte_hash_zeroState s.next hn l hl
  · exact foldl_hashByte_hash_zeroState 0 (by norm_num) l hl

theorem rollingHash_window_fingerprint_witness :
    (List.foldl RollingHash.hashByte
        (RollingHash.mk 5 (List.replicate 16 7) 3).reset [1, 2, 3]).hash =
        rabinFingerprint (lastWindow [1, 2, 3]) ∧
      (List.foldl RollingHash.hashByte RollingHash.new [1, 2, 3]).hash =
        rabinFingerprint (lastWindow [1, 2, 3]) :=
  rollingHash_window_fingerprint ⟨5, List.replicate 16 7, 3⟩ (by decide)
    [1, 2, 3] (by decide)

/-- C4: calling `hash_bytes(B)` from fresh state equals seeding with the first 16
bytes and then `hash_byte` on the rest when `|B| ≥ 16`, and equals hashing
the zero-left-padded buffer when `|B| < 16`. -/
theorem rollingHash_hashBytes_split (B : List Nat) (hB : ∀ b ∈ B, b < 256) :
    (16 ≤ B.length →
      (RollingHash.new.hashBytes B).hash =
        (List.foldl RollingHash.hashByte
          (RollingHash.new.hashBytes (B.take 16)) (B.drop 16)).hash) ∧
    (B.length < 16 →
      (RollingHash.new.hashBytes B).hash =
        (RollingHash.new.hashBytes
          (List.replicate (16 - B.length) 0 ++ B)).hash) := by
  constructor
  · intro h16
    have htake : RollingHash.new.hashBytes (B.take 16) =
        List.foldl RollingHash.hashByte RollingHash.new (B.take 16) := by
      unfold RollingHash.hashBytes
      rw [if_neg]
      have := List.length_take_le 16 B
      omega
    rw [htake, ← List.foldl_append, List.take_append_drop]
    rw [hashBytes_new_hash B hB]
    exact (foldl_hashByte_hash_zeroState 0 (by norm_num) B hB).symm
  · intro h16
    have hpad : ∀ b ∈ List.replicate (16 - B.length) (0 : Nat) ++ B, b < 256 := by
      intro b hb
      rcases List.mem_append.mp hb with hb | hb
      · rw [List.eq_of_mem_replicate hb]
        norm_num
      · exact hB b hb
    rw [hashBytes_new_hash B hB, hashBytes_new_hash _ hpad, lastWindow_pad B h16]

theorem rollingHash_hashBytes_split_witness :
    (16 ≤ ([0, 1, 2] : List Nat).length →
      (RollingHash.new.hashBytes [0, 1, 2]).hash =
        (List.foldl RollingHash.hashByte
          (RollingHash.new.hashBytes ([0, 1, 2].take 16)) ([0, 1, 2].drop 16)).hash) ∧
    (([0, 1, 2] : List Nat).length < 16 →
      (RollingHash.new.hashBytes [0, 1, 2]).hash =
        (RollingHash.new.hashBytes
          (List.replicate (16 - ([0, 1, 2] : List Nat).length) 0 ++ [0, 1, 2])).hash) :=
  rollingHash_hashBytes_split [0, 1, 2] (by decide)

/-- C5: two buffers of length at least 16 whose last 16 bytes coincide
hash to the same final value under `hash_bytes` from fresh state. -/
theorem rollingHash_last16_determines (B₁ B₂ : List Nat)
    (h₁ : 16 ≤ B₁.length) (h₂ : 16 ≤ B₂.length)
    (hB₁ : ∀ b ∈ B₁, b < 256) (hB₂ : ∀ b ∈ B₂, b < 256)
    (hlast : B₁.drop (B₁.length - 16) = B₂.drop (B₂.length - 16)) :
    (RollingHash.new.hashBytes B₁).hash = (RollingHash.new.hashBytes B₂).hash := by
  rw [hashBytes_new_hash B₁ hB₁, hashBytes_new_hash B₂ hB₂,
    lastWindow_of_ge B₁ h₁, lastWindow_of_ge B₂ h₂, hlast]

theorem rollingHash_last16_determines_witness :
    (RollingHash.new.hashBytes
        ((List.replicate 20 9) ++ List.range 16)).hash =
      (RollingHash.new.hashBytes ((List.replicate 3 4) ++ List.range 16)).hash :=
  rollingHash_last16_determines _ _ (by decide) (by decide) (by decide)
    (by decide) (by decide)

/-- C6: calling `reset()` on a hash in any reachable state (any `next < 16`)
followed by `hash_bytes(B)` gives the same `hash()` as `new()` followed by
`hash_bytes(B)`: leaving `next` unchanged in `reset` is observationally
equivalent to a fresh state. -/
theorem rollingHash_reset_eq_new (s : RollingHash) (hn : s.next < 16)
    (B : List Nat) (hB : ∀ b ∈ B, b < 256) :
    ((s.reset).hashBytes B).hash = (RollingHash.new.hashBytes B).hash := by
  have hr : s.reset =
      { hash := 0, queue := List.replicate 16 0, next := s.next } := rfl
  rw [hr, hashBytes_hash_zeroState s.next hn B hB, hashBytes_new_hash B hB]

theorem rollingHash_reset_eq_new_witness :
    ((RollingHash.mk 99 (List.replicate 16 8) 11).reset.hashBytes
        [5, 6, 7, 8]).hash =
      (RollingHash.new.hashBytes [5, 6, 7, 8]).hash :=
  rollingHash_reset_eq_new ⟨99, List.replicate 16 8, 11⟩ (by decide)
    [5, 6, 7, 8] (by decide)

/-! ### The transition tables (build-time generator vs runtime constructor) -/

theorem build_shl_eq :
    build_shift_left_n_bits_with_mod_64 = shift_left_n_bits_with_mod_64 := by
  funext v n
  induction n generalizing v with
  | zero => rfl
  | succ m ih =>
    simp only [build_shift_left_n_bits_with_mod_64, shift_left_n_bits_with_mod_64]
    rw [show buildShlModStep = shlModStep from rfl]
    exact ih _

theorem getD_range_map (f : Nat → Nat) (b : Nat) (h : b < 256) :
    ((List.range 256).map f).getD b 0 = f b := by
  rw [List.getD_eq_getElem _ _ (by simp [h])]
  simp

/-- C7: the build-time generator of `build.rs` and the runtime constructor
`RollingHash::new` produce bitwise-identical tables, and for every byte
`b` both hold `PUSH[b] = shl_mod(b << 56, 8)` and `POP[b] = shl_mod(b, 128)`
(the values `hash_byte` reads through `pushEntry`/`popEntry`). -/
theorem tables_agree (b : Nat) (hb : b < 256) :
    ROLLING_HASH_PUSH_TABLE = rhPushTable ∧
    ROLLING_HASH_POP_TABLE = rhPopTable ∧
    ROLLING_HASH_PUSH_TABLE.getD b 0 = shift_left_n_bits_with_mod_64 (b <<< 56) 8 ∧
    ROLLING_HASH_POP_TABLE.getD b 0 = shift_left_n_bits_with_mod_64 b 128 ∧
    ROLLING_HASH_PUSH_TABLE.getD b 0 = pushEntry b ∧
    ROLLING_HASH_POP_TABLE.getD b 0 = popEntry b := by
  have hpush : ROLLING_HASH_PUSH_TABLE = rhPushTable := by
    unfold ROLLING_HASH_PUSH_TABLE rhPushTable
    rw [build_shl_eq]
  have hpop : ROLLING_HASH_POP_TABLE = rhPopTable := by
    unfold ROLLING_HASH_POP_TABLE rhPopTable
    rw [build_shl_eq]
  have hgp : ROLLING_HASH_PUSH_TABLE.getD b 0 =
      shift_left_n_bits_with_mod_64 (b <<< 56) 8 := by
    rw [hpush]
    unfold rhPushTable
    exact getD_range_map _ b hb
  have hgq : ROLLING_HASH_POP_TABLE.getD b 0 =
      shift_left_n_bits_with_mod_64 b 128 := by
    rw [hpop]
    unfold rhPopTable
    exact getD_range_map _ b hb
  exact ⟨hpush, hpop, hgp, hgq, hgp, hgq⟩

theorem tables_agree_witness :
    ROLLING_HASH_PUSH_TABLE = rhPushTable ∧
    ROLLING_HASH_POP_TABLE = rhPopTable ∧
    ROLLING_HASH_PUSH_TABLE.getD 171 0 =
      shift_left_n_bits_with_mod_64 (171 <<< 56) 8 ∧
    ROLLING_HASH_POP_TABLE.getD 171 0 = shift_left_n_bits_with_mod_64 171 128 ∧
    ROLLING_HASH_PUSH_TABLE.getD 171 0 = pushEntry 171 ∧
    ROLLING_HASH_POP_TABLE.getD 171 0 = popEntry 171 :=
  tables_agree 171 (by decide)

/-! ### Chunker scan-loop bounds -/

theorem scanLoop_prim_bounds (fuel i : Nat) (hasher : RollingHash)
    (mem : List Nat) (secondary j : Nat)
    (h : (scanLoop fuel i hasher mem secondary).1 = some j) :
    i ≤ j ∧ j < i + fuel ∧ j < mem.length := by
  induction fuel generalizing i hasher secondary with
  | zero => simp [scanLoop] at h
  | succ f ih =>
    simp only [scanLoop] at h
    split at h
    · simp at h
    · next hlen =>
      split at h
      · next hp =>
        simp at h
        subst h
        exact ⟨Nat.le_refl i, by omega, by omega⟩
      · next hp =>
        split at h
        · have := ih (i + 1) (hasher.hashByte (mem.getD i 0)) i h
          exact ⟨by omega, by omega, this.2.2⟩
        · have := ih (i + 1) (hasher.hashByte (mem.getD i 0)) secondary h
          exact ⟨by omega, by omega, this.2.2⟩

theorem scanLoop_sec_bounds (fuel i : Nat) (hasher : RollingHash)
    (mem : List Nat) (secondary : Nat) :
    (scanLoop fuel i hasher mem secondary).2.1 = secondary ∨
      (i ≤ (scanLoop fuel i hasher mem secondary).2.1 ∧
        (scanLoop fuel i hasher mem secondary).2.1 < i + fuel ∧
        (scanLoop fuel i hasher mem secondary).2.1 < mem.length) := by
  induction fuel generalizing i hasher secondary with
  | zero => left; rfl
  | succ f ih =>
    simp only [scanLoop]
    split
    · left; rfl
    · next hlen =>
      split
      · left; rfl
      · next hp =>
        split
        · next hs =>
          rcases ih (i + 1) (hasher.hashByte (mem.getD i 0)) i with h | h
          · right
            rw [h]
            exact ⟨Nat.le_refl i, by omega, by omega⟩
          · right
            exact ⟨by omega, by omega, h.2.2⟩
        · next hs =>
          rcases ih (i + 1) (hasher.hashByte (mem.getD i 0)) secondary with h | h
          · left
            exact h
          · right
            exact ⟨by omega, by omega, h.2.2⟩

/-- One successful `next` call on a non-empty region: some prefix of
length `k` is emitted with `0 < k ≤ len`, `k ≤ max`, and `k ≥ min`
whenever the chunk is not the final one (`k < len`). -/
theorem chunkerNext_spec (c : Chunker) (h1 : 0 < c.min) (h2 : c.min ≤ c.max)
    (hne : c.mem ≠ []) :
    ∃ k hasher', chunkerNext c = .ok (some (c.mem.take k,
        { c with hasher := hasher', mem := c.mem.drop k })) ∧
      0 < k ∧ k ≤ c.mem.length ∧ k ≤ c.max ∧
      (k < c.mem.length → c.min ≤ k) := by
  have hlen : 0 < c.mem.length := List.length_pos.mpr hne
  by_cases hsm : c.mem.length < c.min
  · refine ⟨c.mem.length, c.hasher, ?_, hlen, Nat.le_refl _, by omega, by omega⟩
    simp only [chunkerNext]
    rw [if_neg (show ¬(c.mem.length = 0) by omega), if_pos hsm,
      List.take_length, List.drop_length]
  · rcases hscan : scanLoop (c.max - c.min) c.min
        ((c.hasher.reset).hashBytes (c.mem.take c.min)) c.mem 0 with
      ⟨prim, secondary, hasher'⟩
    cases prim with
    | some i =>
      have hb := scanLoop_prim_bounds (c.max - c.min) c.min
        ((c.hasher.reset).hashBytes (c.mem.take c.min)) c.mem 0 i
        (by rw [hscan])
      refine ⟨i, hasher', ?_, by omega, by omega, by omega, fun _ => hb.1⟩
      simp only [chunkerNext, hscan]
      rw [if_neg (show ¬(c.mem.length = 0) by omega), if_neg hsm]
      have hpop : pop_front_chunk c.mem i =
          some (c.mem.take i, c.mem.drop i) := by
        unfold pop_front_chunk
        rw [if_pos (by omega)]
      rw [hpop]
    | none =>
      have hs' := scanLoop_sec_bounds (c.max - c.min) c.min
        ((c.hasher.reset).hashBytes (c.mem.take c.min)) c.mem 0
      rw [hscan] at hs'
      simp only at hs'
      have hq : c.min ≤ (if secondary = 0 then c.max else secondary) ∧
          (if secondary = 0 then c.max else secondary) ≤ c.max := by
        split
        · exact ⟨h2, Nat.le_refl _⟩
        · next hnz =>
          rcases hs' with h0 | hbounds
          · exact absurd h0 hnz
          · exact ⟨hbounds.1, by omega⟩
      by_cases hbig : (if secondary = 0 then c.max else secondary) > c.mem.length
      · refine ⟨c.mem.length, hasher', ?_, hlen, Nat.le_refl _, by omega, by omega⟩
        simp only [chunkerNext, hscan]
        rw [if_neg (show ¬(c.mem.length = 0) by omega), if_neg hsm, if_pos hbig]
        have hpop : pop_front_chunk c.mem c.mem.length =
            some (c.mem.take c.mem.length, c.mem.drop c.mem.length) := by
          unfold pop_front_chunk
          rw [if_pos (Nat.le_refl _)]
        rw [hpop]
      · refine ⟨if secondary = 0 then c.max else secondary, hasher', ?_,
          by omega, by omega, hq.2, fun _ => hq.1⟩
        simp only [chunkerNext, hscan]
        rw [if_neg (show ¬(c.mem.length = 0) by omega), if_neg hsm, if_neg hbig]
        have hpop : pop_front_chunk c.mem
            (if secondary = 0 then c.max else secondary) =
            some (c.mem.take (if secondary = 0 then c.max else secondary),
              c.mem.drop (if secondary = 0 then c.max else secondary)) := by
          unfold pop_front_chunk
          rw [if_pos (by omega)]
        rw [hpop]

theorem chunkerNext_nil (c : Chunker) (h : c.mem = []) :
    chunkerNext c = .ok none := by
  simp [chunkerNext, h]

theorem chunkerRun_nil (fuel : Nat) (c : Chunker) (h : c.mem = []) :
    chunkerRun fuel c = [] := by
  cases fuel with
  | zero => rfl
  | succ f => simp [chunkerRun, chunkerNext_nil c h]

theorem chunkerRunState_nil (fuel : Nat) (c : Chunker) (h : c.mem = []) :
    chunkerRunState fuel c = c := by
  cases fuel with
  | zero => rfl
  | succ f => simp [chunkerRunState, chunkerNext_nil c h]

/-- Running the chunker with fuel at least the remaining length partitions
the remaining region: the chunks concatenate back to it, every chunk is a
non-empty list of at most `max` bytes, every non-final chunk has at least
`min` bytes, and the final state is exhausted. -/
theorem chunkerRun_spec (fuel : Nat) (c : Chunker) (hf : c.mem.length ≤ fuel)
    (h1 : 0 < c.min) (h2 : c.min ≤ c.max) :
    (chunkerRun fuel c).flatten = c.mem ∧
      (∀ ch ∈ chunkerRun fuel c, ch ≠ [] ∧ ch.length ≤ c.max) ∧
      (∀ k, k + 1 < (chunkerRun fuel c).length →
        c.min ≤ ((chunkerRun fuel c).getD k []).length) ∧
      (chunkerRunState fuel c).mem = [] := by
  induction fuel generalizing c with
  | zero =>
    have hmem : c.mem = [] := List.eq_nil_of_length_eq_zero (by omega)
    refine ⟨hmem.symm, by simp [chunkerRun], by simp [chunkerRun], hmem⟩
  | succ f ih =>
    by_cases hmem : c.mem = []
    · rw [chunkerRun_nil _ c hmem, chunkerRunState_nil _ c hmem]
      exact ⟨hmem.symm, by simp, by simp, hmem⟩
    · obtain ⟨j, hasher', heq, hj0, hjle, hjmax, hjmin⟩ :=
        chunkerNext_spec c h1 h2 hmem
      have hrun : chunkerRun (f + 1) c =
          c.mem.take j :: chunkerRun f
            { c with hasher := hasher', mem := c.mem.drop j } := by
        simp [chunkerRun, heq]
      have hstate : chunkerRunState (f + 1) c =
          chunkerRunState f { c with hasher := hasher', mem := c.mem.drop j } := by
        simp [chunkerRunState, heq]
      have hdlen : (c.mem.drop j).length = c.mem.length - j := List.length_drop j c.mem
      have htlen : (c.mem.take j).length = j := List.length_take_of_le hjle
      obtain ⟨ihflat, ihmem, ihmin, ihstate⟩ :=
        ih { c with hasher := hasher', mem := c.mem.drop j }
          (by show (c.mem.drop j).length ≤ f; omega) h1 h2
      refine ⟨?_, ?_, ?_, by rw [hstate]; exact ihstate⟩
      · rw [hrun, List.flatten_cons, ihflat]
        exact List.take_append_drop j c.mem
      · rw [hrun]
        intro ch hch
        rcases List.mem_cons.mp hch with hch | hch
        · subst hch
          constructor
          · apply List.ne_nil_of_length_pos
            omega
          · omega
        · exact ihmem ch hch
      · rw [hrun]
        intro k hk
        cases k with
        | zero =>
          rw [List.getD_cons_zero]
          rw [List.length_cons] at hk
          have hrest : chunkerRun f
              { c with hasher := hasher', mem := c.mem.drop j } ≠ [] := by
            intro hnil
            rw [hnil] at hk
            simp at hk
          have hdne : c.mem.drop j ≠ [] := by
            intro hdnil
            exact hrest (chunkerRun_nil f _ hdnil)
          have hjlt : j < c.mem.length := by
            by_contra hge
            have : c.mem.drop j = [] := List.drop_eq_nil_of_le (by omega)
            exact hdne this
          rw [htlen]
          exact hjmin hjlt
        | succ k' =>
          rw [List.getD_cons_succ]
          apply ihmin
          rw [List.length_cons] at hk
          omega

/-- C1: over any buffer with `0 < min ≤ max`, the chunks yielded to
exhaustion concatenate to exactly the input, every chunk is non-empty
with length at most `max`, and every chunk except possibly the last has
length at least `min`. -/
theorem chunker_partition (buf : List Nat) (min max : Nat) (hmin : 0 < min)
    (hmax : min ≤ max) :
    (chunkerRun buf.length (Chunker.new buf min max)).flatten = buf ∧
      (∀ ch ∈ chunkerRun buf.length (Chunker.new buf min max),
        ch ≠ [] ∧ ch.length ≤ max) ∧
      (∀ k, k + 1 < (chunkerRun buf.length (Chunker.new buf min max)).length →
        min ≤ ((chunkerRun buf.length (Chunker.new buf min max)).getD k []).length) := by
  obtain ⟨hflat, hmem, hnonlast, _⟩ :=
    chunkerRun_spec buf.length (Chunker.new buf min max) (Nat.le_refl _) hmin hmax
  exact ⟨hflat, hmem, hnonlast⟩

theorem chunker_partition_witness :
    (chunkerRun ([7, 255, 3] : List Nat).length (Chunker.new [7, 255, 3] 1 4)).flatten
        = [7, 255, 3] ∧
      (∀ ch ∈ chunkerRun ([7, 255, 3] : List Nat).length (Chunker.new [7, 255, 3] 1 4),
        ch ≠ [] ∧ ch.length ≤ 4) ∧
      (∀ k, k + 1 <
          (chunkerRun ([7, 255, 3] : List Nat).length (Chunker.new [7, 255, 3] 1 4)).length →
        1 ≤ ((chunkerRun ([7, 255, 3] : List Nat).length
          (Chunker.new [7, 255, 3] 1 4)).getD k []).length) :=
  chunker_partition [7, 255, 3] 1 4 (by decide) (by decide)

/-- C8: the empty buffer yields end-of-stream immediately and zero chunks;
a non-empty buffer shorter than `min` yields exactly one chunk equal to
the whole input and is then exhausted. -/
theorem chunker_edge_cases (min max : Nat) (buf : List Nat) (hne : buf ≠ [])
    (hlt : buf.length < min) :
    chunkerNext (Chunker.new [] min max) = .ok none ∧
      (∀ fuel, chunkerRun fuel (Chunker.new [] min max) = []) ∧
      chunkerRun buf.length (Chunker.new buf min max) = [buf] ∧
      (chunkerRunState buf.length (Chunker.new buf min max)).mem = [] := by
  have hlen : 0 < buf.length := List.length_pos.mpr hne
  have hnext : chunkerNext (Chunker.new buf min max) =
      .ok (some (buf, { Chunker.new buf min max with mem := [] })) := by
    simp only [chunkerNext, Chunker.new]
    rw [if_neg (show ¬(buf.length = 0) by omega), if_pos hlt]
  obtain ⟨f, hf⟩ : ∃ f, buf.length = f + 1 := ⟨buf.length - 1, by omega⟩
  refine ⟨chunkerNext_nil _ rfl, fun fuel => chunkerRun_nil fuel _ rfl, ?_, ?_⟩
  · rw [hf]
    simp only [chunkerRun, hnext]
    rw [chunkerRun_nil f _ rfl]
  · rw [hf]
    simp only [chunkerRunState, hnext]
    rw [chunkerRunState_nil f _ rfl]

theorem chunker_edge_cases_witness :
    chunkerNext (Chunker.new [] 5 9) = .ok none ∧
      (∀ fuel, chunkerRun fuel (Chunker.new [] 5 9) = []) ∧
      chunkerRun ([1, 2] : List Nat).length (Chunker.new [1, 2] 5 9) = [[1, 2]] ∧
      (chunkerRunState ([1, 2] : List Nat).length (Chunker.new [1, 2] 5 9)).mem = [] :=
  chunker_edge_cases 5 9 [1, 2] (by decide) (by decide)

/-- C9: each `next` call on a non-empty remaining region emits a non-empty
chunk and strictly shrinks the region, so after at most `|buf|` calls the
state is exhausted and `next` signals (and keeps signalling)
end-of-stream. -/
theorem chunker_terminates (buf : List Nat) (min max : Nat) (hmin : 0 < min)
    (hmax : min ≤ max) :
    (∀ c : Chunker, c.min = min → c.max = max → c.mem ≠ [] →
      ∃ ch c', chunkerNext c = .ok (some (ch, c')) ∧ ch ≠ [] ∧
        c'.mem.length < c.mem.length) ∧
      (chunkerRunState buf.length (Chunker.new buf min max)).mem = [] ∧
      chunkerNext (chunkerRunState buf.length (Chunker.new buf min max)) =
        .ok none := by
  have hrs :=
    (chunkerRun_spec buf.length (Chunker.new buf min max) (Nat.le_refl _)
      hmin hmax).2.2.2
  refine ⟨?_, hrs, chunkerNext_nil _ hrs⟩
  intro c hcmin hcmax hne
  obtain ⟨j, hasher', heq, hj0, hjle, _, _⟩ :=
    chunkerNext_spec c (by omega) (by omega) hne
  refine ⟨c.mem.take j, { c with hasher := hasher', mem := c.mem.drop j },
    heq, ?_, ?_⟩
  · apply List.ne_nil_of_length_pos
    rw [List.length_take_of_le hjle]
    omega
  · show (c.mem.drop j).length < c.mem.length
    rw [List.length_drop]
    omega

theorem chunker_terminates_witness :
    (∀ c : Chunker, c.min = 1 → c.max = 4 → c.mem ≠ [] →
      ∃ ch c', chunkerNext c = .ok (some (ch, c')) ∧ ch ≠ [] ∧
        c'.mem.length < c.mem.length) ∧
      (chunkerRunState ([1, 2, 3] : List Nat).length (Chunker.new [1, 2, 3] 1 4)).mem = [] ∧
      chunkerNext (chunkerRunState ([1, 2, 3] : List Nat).length
        (Chunker.new [1, 2, 3] 1 4)) = .ok none :=
  chunker_terminates [1, 2, 3] 1 4 (by decide) (by decide)

/-- C10: with `0 < min ≤ max`, `next` never reaches the panicking
out-of-range branch of `pop_front_chunk`: it always returns `.ok`. -/
theorem chunker_no_panic (c : Chunker) (h1 : 0 < c.min) (h2 : c.min ≤ c.max) :
    ∃ r, chunkerNext c = .ok r := by
  by_cases hmem : c.mem = []
  · exact ⟨none, chunkerNext_nil c hmem⟩
  · obtain ⟨j, hasher', heq, _⟩ := chunkerNext_spec c h1 h2 hmem
    exact ⟨_, heq⟩

theorem chunker_no_panic_witness :
    ∃ r, chunkerNext (Chunker.new [3, 1, 4] 2 5) = .ok r :=
  chunker_no_panic (Chunker.new [3, 1, 4] 2 5) (by decide) (by decide)

/-- C3 counterexample: on buffer `[7, 255]` with `min = 1`, `max = 10`,
the very first scan iteration (`i = min`) feeds byte `255`, the hash
becomes `0x7FF`, the primary bitmask matches, and the primary-match early
return emits the chunk `[7]` of length exactly `min` — contradicting the
claim that no primary cut lands at `i = min`. -/
theorem chunker_min_primary_counterexample :
    (scanLoop ((Chunker.new [7, 255] 1 10).max - (Chunker.new [7, 255] 1 10).min)
        (Chunker.new [7, 255] 1 10).min
        (((Chunker.new [7, 255] 1 10).hasher.reset).hashBytes
          ((Chunker.new [7, 255] 1 10).mem.take (Chunker.new [7, 255] 1 10).min))
        (Chunker.new [7, 255] 1 10).mem 0).1 =
      some (Chunker.new [7, 255] 1 10).min ∧
    emittedChunk (Chunker.new [7, 255] 1 10) = some [7] ∧
    ([7] : List Nat).length = (Chunker.new [7, 255] 1 10).min := by
  refine ⟨by decide, by decide, by decide⟩

/-- C3 amended: a primary cut can land anywhere in `[min, max)` —
including at `i = min` itself, since the loop body feeds the byte at
index `min` before testing — so a chunk of exactly `min` bytes may come
from the primary-match early return as well as from the fallback path. -/
theorem chunker_primary_cut_bounds (c : Chunker) (j : Nat) (h2 : c.min ≤ c.max)
    (h : (scanLoop (c.max - c.min) c.min
        ((c.hasher.reset).hashBytes (c.mem.take c.min)) c.mem 0).1 = some j) :
    c.min ≤ j ∧ j < c.max ∧ j < c.mem.length := by
  have hb := scanLoop_prim_bounds (c.max - c.min) c.min
    ((c.hasher.reset).hashBytes (c.mem.take c.min)) c.mem 0 j h
  exact ⟨hb.1, by omega, hb.2.2⟩

theorem chunker_primary_cut_bounds_witness :
    (Chunker.new [7, 255] 1 10).min ≤ 1 ∧ 1 < (Chunker.new [7, 255] 1 10).max ∧
      1 < (Chunker.new [7, 255] 1 10).mem.length :=
  chunker_primary_cut_bounds (Chunker.new [7, 255] 1 10) 1 (by decide) (by decide)
